import Mathlib

/-!
Verification of the batch image-compression and rename utilities
(`compress_images.py`, `compress_ultra.py`, `rename_images.py`).

The development shallowly embeds the three scripts:

* The dimension arithmetic of `compress_image` / `compress_image_ultra` is
  embedded over `ℚ` (exact rational arithmetic in place of Python floats;
  Python's `int()` on the non-negative products coincides with the floor).
* The per-file control flow of `compress_image` is embedded as a function over
  an `ImagingOps` record of fallible imaging/filesystem primitives
  (`Except String` models a raised exception).  The initial
  `os.path.getsize(input_path)` happens *before* the `try:` block and is
  modelled accordingly.
* The rename utility works on plain filenames, modelled as `List Char`
  (`Name`); sorting, `str.lower`, `os.path.splitext`, `str.zfill` and the
  sequential rename loop are each embedded faithfully.
* Facts about the external imaging library (Pillow) that the scripts rely on
  (pixel modes carrying alpha, the meaning of the integer `subsampling`
  save parameter) are modelled from the spec's description of the external
  collaborator and from the library's documented behaviour.
-/

/-! ### Resize arithmetic

`compress_images.py` lines 66-80 (identically `compress_ultra.py` lines 61-75):

```
if original_width > max_width or original_height > max_height:
    width_ratio = max_width / original_width
    height_ratio = max_height / original_height
    scale_ratio = min(width_ratio, height_ratio)
    new_width = int(original_width * scale_ratio)
    new_height = int(original_height * scale_ratio)
```
-/

/-- The dimension computation inside the resize branch.  Python float division
is embedded as exact division in `ℚ`; `int()` of the non-negative products is
`Int.floor` followed by `Int.toNat`. -/
def scaleDims (w h maxW maxH : ℕ) : ℕ × ℕ :=
  let widthRatio : ℚ := (maxW : ℚ) / (w : ℚ)
  let heightRatio : ℚ := (maxH : ℚ) / (h : ℚ)
  let scaleRatio : ℚ := min widthRatio heightRatio
  ((⌊(w : ℚ) * scaleRatio⌋).toNat, (⌊(h : ℚ) * scaleRatio⌋).toNat)

/-- Output dimensions of the resize step: the scale is applied only when the
image exceeds a bound (`original_width > max_width or original_height >
max_height`); otherwise the dimensions are untouched. -/
def newDimensions (w h maxW maxH : ℕ) : ℕ × ℕ :=
  if maxW < w ∨ maxH < h then scaleDims w h maxW maxH else (w, h)

/-! ### Per-file compression pipeline -/

/-- An in-memory image as the scripts see it: pixel mode plus dimensions. -/
structure PilImage where
  mode : String
  width : ℕ
  height : ℕ
deriving DecidableEq

/-- Keyword arguments passed to the imaging library's JPEG encoder.
`none` models a keyword that the call site does not pass. -/
structure SaveKwargs where
  format : String
  quality : ℕ
  optimize : Bool
  progressive : Option Bool
  subsampling : Option ℤ
  qtables : Option String
deriving DecidableEq

/-- `img.save(output_path, 'JPEG', quality=quality, optimize=True)`
(`compress_images.py` line 83). -/
def standardSaveKwargs (quality : ℕ) : SaveKwargs :=
  { format := "JPEG", quality := quality, optimize := true,
    progressive := none, subsampling := none, qtables := none }

/-- The `save_kwargs` dictionary of `compress_image_ultra`
(`compress_ultra.py` lines 78-85): progressive encoding from the
`progressive` parameter, `subsampling = 0`, `qtables = 'web_low'`. -/
def ultraSaveKwargs (quality : ℕ) (progressive : Bool) : SaveKwargs :=
  { format := "JPEG", quality := quality, optimize := true,
    progressive := some progressive, subsampling := some 0,
    qtables := some "web_low" }

/-- The fallible primitives the scripts consume (spec §6): filesystem size
queries plus the imaging library's decode / convert / resize / encode.
A `Except.error` result models a raised exception. -/
structure ImagingOps where
  getsize : String → Except String ℕ
  openImage : String → Except String PilImage
  convert : PilImage → String → Except String PilImage
  resize : PilImage → ℕ × ℕ → Except String PilImage
  save : PilImage → String → SaveKwargs → Except String Unit

/-- `if img.mode in ('RGBA', 'P'): img = img.convert('RGB')`
(`compress_images.py` lines 63-64, `compress_ultra.py` lines 58-59). -/
def convertStep (ops : ImagingOps) (img : PilImage) : Except String PilImage :=
  if img.mode = "RGBA" ∨ img.mode = "P" then ops.convert img "RGB" else Except.ok img

/-- The conditional resize (`compress_images.py` lines 70-80). -/
def resizeStep (ops : ImagingOps) (maxW maxH : ℕ) (img : PilImage) :
    Except String PilImage :=
  if maxW < img.width ∨ maxH < img.height then
    ops.resize img (scaleDims img.width img.height maxW maxH)
  else Except.ok img

/-- The body of the `try:` block of `compress_image` /
`compress_image_ultra`: open, convert, resize, save, then re-query the output
file's size.  Any failure inside it is an exception raised inside the `try:`. -/
def tryBody (ops : ImagingOps) (inputPath outputPath : String) (maxW maxH : ℕ)
    (kwargs : SaveKwargs) : Except String ℕ := do
  let img ← ops.openImage inputPath
  let img ← convertStep ops img
  let img ← resizeStep ops maxW maxH img
  let _ ← ops.save img outputPath kwargs
  ops.getsize outputPath

/-- `compress_image` (`compress_images.py` lines 39-92).  The initial
`original_size = get_file_size(input_path)` is evaluated *before* the `try:`
block, so a failure there propagates; a failure inside the `try:` is caught
and `(original_size, original_size)` is returned. -/
def compressImage (ops : ImagingOps) (inputPath : String)
    (outputPath : Option String) (maxW maxH quality : ℕ) :
    Except String (ℕ × ℕ) :=
  let outPath := outputPath.getD inputPath
  match ops.getsize inputPath with
  | Except.error e => Except.error e
  | Except.ok originalSize =>
    match tryBody ops inputPath outPath maxW maxH (standardSaveKwargs quality) with
    | Except.ok compressedSize => Except.ok (originalSize, compressedSize)
    | Except.error _ => Except.ok (originalSize, originalSize)

/-- `compress_image_ultra` (`compress_ultra.py` lines 33-97): identical control
flow, but saving with `ultraSaveKwargs`. -/
def compressImageUltra (ops : ImagingOps) (inputPath : String)
    (outputPath : Option String) (maxW maxH quality : ℕ) (progressive : Bool) :
    Except String (ℕ × ℕ) :=
  let outPath := outputPath.getD inputPath
  match ops.getsize inputPath with
  | Except.error e => Except.error e
  | Except.ok originalSize =>
    match tryBody ops inputPath outPath maxW maxH (ultraSaveKwargs quality progressive) with
    | Except.ok compressedSize => Except.ok (originalSize, compressedSize)
    | Except.error _ => Except.ok (originalSize, originalSize)

/-! ### External imaging-library facts -/

/-- JPEG chroma subsampling modes. -/
inductive ChromaSubsampling
  | s444
  | s422
  | s420
deriving DecidableEq

/-- Modelled from the spec: §6 describes the external imaging library's
`encode_jpeg(..., subsampling?)` keyword.  Pillow's documented meaning of the
integer values of the `subsampling` save parameter is `0` = 4:4:4 (no chroma
subsampling), `1` = 4:2:2, `2` = 4:2:0. -/
def pilSubsamplingOf (v : ℤ) : Option ChromaSubsampling :=
  if v = 0 then some ChromaSubsampling.s444
  else if v = 1 then some ChromaSubsampling.s422
  else if v = 2 then some ChromaSubsampling.s420
  else none

/-- The chroma subsampling mode that most favours size over fidelity
(the spec's "maximal chroma subsampling", i.e. 4:2:0). -/
def maximalChromaSubsampling : ChromaSubsampling := ChromaSubsampling.s420

/-- Modelled from the spec: §4.1 speaks of "alpha-carrying" pixel modes; these
are the imaging library's (Pillow's) modes with an alpha channel. -/
def pilAlphaModes : List String := ["RGBA", "LA", "PA", "RGBa", "La"]

/-- Whether a pixel mode carries an alpha channel. -/
def pilHasAlpha (m : String) : Bool := pilAlphaModes.contains m

/-- Modelled from the spec: §4.1 speaks of "palette" pixel modes; these are
the imaging library's palette modes. -/
def pilPaletteModes : List String := ["P", "PA"]

/-- Whether a pixel mode is a palette mode. -/
def pilIsPalette (m : String) : Bool := pilPaletteModes.contains m

/-- A concrete `ImagingOps` whose `convert` really retargets the pixel mode
and whose `resize` really resizes; used to exercise the pipeline on concrete
inputs. -/
def modeSetOps : ImagingOps where
  getsize := fun _ => Except.ok 100
  openImage := fun _ => Except.error "decode failed"
  convert := fun img m => Except.ok { img with mode := m }
  resize := fun img d => Except.ok { img with width := d.1, height := d.2 }
  save := fun _ _ _ => Except.ok ()

/-- A concrete `ImagingOps` for a vanished input file: every filesystem query
raises. -/
def missingFileOps : ImagingOps where
  getsize := fun _ => Except.error "ENOENT"
  openImage := fun _ => Except.error "ENOENT"
  convert := fun img _ => Except.ok img
  resize := fun img _ => Except.ok img
  save := fun _ _ _ => Except.ok ()

/-! ### Folder enumeration

`compress_folder` (`compress_images.py` lines 114-116) and
`compress_folder_ultra` (`compress_ultra.py` lines 110-112):

```
jpg_files = list(folder_path.glob("*.jpg")) + list(folder_path.glob("*.jpeg"))
jpg_files += list(folder_path.glob("*.JPG")) + list(folder_path.glob("*.JPEG"))
```

`pathlib` globbing is case-sensitive on the Linux filesystems the scripts
target, and `"*.ext"` matches exactly the names ending in `".ext"`; each glob
yields names in directory scan order. -/

/-- Filenames are plain character lists (Python compares and lowercases
strings code point by code point). -/
abbrev Name := List Char

def jpgSuffix : Name := ['.', 'j', 'p', 'g']

def jpegSuffix : Name := ['.', 'j', 'p', 'e', 'g']

def jpgSuffixUpper : Name := ['.', 'J', 'P', 'G']

def jpegSuffixUpper : Name := ['.', 'J', 'P', 'E', 'G']

/-- The enumeration of `compress_folder`: the four case-sensitive glob results
concatenated in source order, `dir` being the directory's scan order. -/
def jpgGlobFiles (dir : List Name) : List Name :=
  dir.filter (fun n => jpgSuffix.isSuffixOf n)
    ++ dir.filter (fun n => jpegSuffix.isSuffixOf n)
    ++ dir.filter (fun n => jpgSuffixUpper.isSuffixOf n)
    ++ dir.filter (fun n => jpegSuffixUpper.isSuffixOf n)

/-! ### The rename utility (`rename_images.py`) -/

/-- `str.lower`, applied code point by code point (all filenames of interest
are ASCII). -/
def lowerName (n : Name) : Name := n.map Char.toLower

/-- `f.lower().endswith(('.jpg', '.jpeg'))` (`rename_images.py` line 44). -/
def isJpegCI (n : Name) : Bool :=
  jpgSuffix.isSuffixOf (lowerName n) || jpegSuffix.isSuffixOf (lowerName n)

/-- Python's string comparison: lexicographic on code points. -/
def lexLe : Name → Name → Bool
  | [], _ => true
  | _ :: _, [] => false
  | a :: as, b :: bs => if a < b then true else if a = b then lexLe as bs else false

/-- `lexLe` as a relation, for use with `List.insertionSort`. -/
def nameLe (a b : Name) : Prop := lexLe a b = true

instance : DecidableRel nameLe := fun a b =>
  inferInstanceAs (Decidable (lexLe a b = true))

/-- Splits a name at its *last* dot: `some (before, fromDot)` where `fromDot`
starts with the last `'.'` of the name, or `none` when the name has no dot. -/
def splitLastDot : Name → Option (Name × Name)
  | [] => none
  | c :: rest =>
    match splitLastDot rest with
    | some (b, e) => some (c :: b, e)
    | none => if c = '.' then some ([], c :: rest) else none

/-- The extension part of `os.path.splitext` on a bare filename: everything
from the last dot on, except that a name whose every character before the last
dot is itself a dot (e.g. `".jpg"`) has no extension. -/
def extOf (n : Name) : Name :=
  match splitLastDot n with
  | none => []
  | some (b, e) => if b.any (fun c => c ≠ '.') then e else []

/-- Fuelled decimal rendering (most significant digit first). -/
def natStrAux : ℕ → ℕ → Name
  | 0, _ => []
  | fuel + 1, n =>
    if n < 10 then [Nat.digitChar n]
    else natStrAux fuel (n / 10) ++ [Nat.digitChar (n % 10)]

/-- Python's `str` on a non-negative integer: its decimal digits. -/
def natStr (n : ℕ) : Name := natStrAux (n + 1) n

/-- `str.zfill`: left-pad with `'0'` to the requested width. -/
def zfill (width : ℕ) (s : Name) : Name := List.replicate (width - s.length) '0' ++ s

/-- `new_name = f"{prefix}{str(idx).zfill(digits)}{ext}"` with
`ext = os.path.splitext(filename)[1].lower()` (`rename_images.py` lines 59-60). -/
def targetName (pfx : Name) (digits idx : ℕ) (fn : Name) : Name :=
  pfx ++ zfill digits (natStr idx) ++ lowerName (extOf fn)

/-- The JPEG-matched files of the folder, sorted ascending by filename
(`files.sort()`, `rename_images.py` lines 42-51). -/
def sortedJpgs (st : List Name) : List Name :=
  List.insertionSort nameLe (st.filter fun n => isJpegCI n)

/-- The rename mapping the utility computes: sorted sources paired with their
targets, indices assigned from 1, padding width the digit count of the total. -/
def renamePlan (pfx : Name) (st : List Name) : List (Name × Name) :=
  let files := sortedJpgs st
  let digits := (natStr files.length).length
  (List.enumFrom 1 files).map fun p => (p.2, targetName pfx digits p.1 p.2)

/-- One iteration of the rename loop (`rename_images.py` lines 58-74) acting
on the folder state (list of names present) and a count of collision skips:
skip silently when the file is already correctly named, skip with a warning
when the target exists, otherwise rename. -/
def renameStep (pfx : Name) (digits : ℕ) (acc : List Name × ℕ) (p : ℕ × Name) :
    List Name × ℕ :=
  let tgt := targetName pfx digits p.1 p.2
  if p.2 = tgt then acc
  else if tgt ∈ acc.1 then (acc.1, acc.2 + 1)
  else (acc.1.map fun x => if x = p.2 then tgt else x, acc.2)

/-- The whole rename run of `main` on a folder state: enumerate matched files,
sort, compute the padding width, and fold the rename loop over the
`enumerate(files, start=1)` pairs.  Returns the final folder state and the
number of collision skips. -/
def runRename (pfx : Name) (st : List Name) : List Name × ℕ :=
  let files := sortedJpgs st
  let digits := (natStr files.length).length
  (List.enumFrom 1 files).foldl (renameStep pfx digits) (st, 0)

/-- The simultaneous substitution induced by a list of `(index, source)`
pairs: each source name is sent to its target, every other name is fixed.
Used to state what a collision-free run does to the folder. -/
def substOf (pfx : Name) (digits : ℕ) : List (ℕ × Name) → Name → Name
  | [], x => x
  | p :: l, x =>
    if x = p.2 then targetName pfx digits p.1 p.2 else substOf pfx digits l x

/-- `int(c) - int('0')` of a digit character. -/
def digitVal (c : Char) : ℕ := c.toNat - 48

/-- The numeric value of a decimal digit string (most significant first). -/
def digitsVal (s : Name) : ℕ := s.foldl (fun a c => 10 * a + digitVal c) 0

/-- All characters of the string are decimal digits. -/
def IsDigitName (s : Name) : Prop := ∀ c ∈ s, 48 ≤ c.toNat ∧ c.toNat ≤ 57

/-! ### Order properties of the filename comparison -/

theorem char_toNat_inj {a b : Char} (h : a.toNat = b.toNat) : a = b :=
  Char.ext (UInt32.toNat.inj h)

theorem lexLe_cons (x y : Char) (xs ys : Name) :
    lexLe (x :: xs) (y :: ys) = true ↔ x < y ∨ (x = y ∧ lexLe xs ys = true) := by
  by_cases h1 : x < y
  · simp [lexLe, h1]
  · by_cases h2 : x = y
    · simp [lexLe, h1, h2]
    · simp [lexLe, h1, h2]

theorem lexLe_refl (a : Name) : lexLe a a = true := by
  induction a with
  | nil => rfl
  | cons c cs ih => exact (lexLe_cons c c cs cs).mpr (Or.inr ⟨rfl, ih⟩)

theorem lexLe_total (a b : Name) : lexLe a b = true ∨ lexLe b a = true := by
  induction a generalizing b with
  | nil => exact Or.inl rfl
  | cons c cs ih =>
    cases b with
    | nil => exact Or.inr rfl
    | cons d ds =>
      rcases lt_trichotomy c d with h | h | h
      · exact Or.inl ((lexLe_cons _ _ _ _).mpr (Or.inl h))
      · subst h
        rcases ih ds with h2 | h2
        · exact Or.inl ((lexLe_cons _ _ _ _).mpr (Or.inr ⟨rfl, h2⟩))
        · exact Or.inr ((lexLe_cons _ _ _ _).mpr (Or.inr ⟨rfl, h2⟩))
      · exact Or.inr ((lexLe_cons _ _ _ _).mpr (Or.inl h))

theorem lexLe_trans {a b c : Name} (h1 : lexLe a b = true) (h2 : lexLe b c = true) :
    lexLe a c = true := by
  induction a generalizing b c with
  | nil => rfl
  | cons x xs ih =>
    cases b with
    | nil => exact absurd h1 (by simp [lexLe])
    | cons y ys =>
      cases c with
      | nil => exact absurd h2 (by simp [lexLe])
      | cons z zs =>
        rcases (lexLe_cons _ _ _ _).mp h1 with hxy | ⟨hxy, hxs⟩
        · rcases (lexLe_cons _ _ _ _).mp h2 with hyz | ⟨hyz, _⟩
          · exact (lexLe_cons _ _ _ _).mpr (Or.inl (lt_trans hxy hyz))
          · exact (lexLe_cons _ _ _ _).mpr (Or.inl (hyz ▸ hxy))
        · subst hxy
          rcases (lexLe_cons _ _ _ _).mp h2 with hyz | ⟨hyz, hys⟩
          · exact (lexLe_cons _ _ _ _).mpr (Or.inl hyz)
          · exact (lexLe_cons _ _ _ _).mpr (Or.inr ⟨hyz, ih hxs hys⟩)

theorem lexLe_antisymm {a b : Name} (h1 : lexLe a b = true) (h2 : lexLe b a = true) :
    a = b := by
  induction a generalizing b with
  | nil =>
    cases b with
    | nil => rfl
    | cons d ds => exact absurd h2 (by simp [lexLe])
  | cons c cs ih =>
    cases b with
    | nil => exact absurd h1 (by simp [lexLe])
    | cons d ds =>
      rcases (lexLe_cons _ _ _ _).mp h1 with hcd | ⟨hcd, hcs⟩
      · rcases (lexLe_cons _ _ _ _).mp h2 with hdc | ⟨hdc, _⟩
        · exact absurd hdc (lt_asymm hcd)
        · exact absurd (hdc ▸ hcd) (lt_irrefl d)
      · subst hcd
        rcases (lexLe_cons _ _ _ _).mp h2 with hdc | ⟨_, hds⟩
        · exact absurd hdc (lt_irrefl c)
        · rw [ih hcs hds]

instance : IsTotal Name nameLe := ⟨lexLe_total⟩

instance : IsTrans Name nameLe := ⟨fun _ _ _ => lexLe_trans⟩

instance : IsAntisymm Name nameLe := ⟨fun _ _ => lexLe_antisymm⟩

instance : IsRefl Name nameLe := ⟨lexLe_refl⟩

theorem lexLe_append_left (c : Name) (x y : Name) : lexLe (c ++ x) (c ++ y) = lexLe x y := by
  induction c with
  | nil => rfl
  | cons a as ih =>
    show lexLe (a :: (as ++ x)) (a :: (as ++ y)) = lexLe x y
    by_cases h : a < a
    · exact absurd h (lt_irrefl a)
    · simp [lexLe, h, ih]

/-! ### Decimal digit strings -/

theorem digitsVal_foldl (s : Name) (a : ℕ) :
    s.foldl (fun x c => 10 * x + digitVal c) a = a * 10 ^ s.length + digitsVal s := by
  induction s generalizing a with
  | nil => simp [digitsVal]
  | cons c cs ih =>
    show cs.foldl _ (10 * a + digitVal c) = _
    rw [ih]
    have h2 : digitsVal (c :: cs) = digitVal c * 10 ^ cs.length + digitsVal cs := by
      show cs.foldl _ (10 * 0 + digitVal c) = _
      rw [ih]; ring_nf
    rw [h2, List.length_cons]; ring

theorem digitsVal_cons (c : Char) (s : Name) :
    digitsVal (c :: s) = digitVal c * 10 ^ s.length + digitsVal s := by
  show s.foldl _ (10 * 0 + digitVal c) = _
  rw [digitsVal_foldl]; ring_nf

theorem digitsVal_append_singleton (s : Name) (c : Char) :
    digitsVal (s ++ [c]) = 10 * digitsVal s + digitVal c := by
  unfold digitsVal
  rw [List.foldl_append]
  rfl

theorem digitsVal_lt_of_digits {s : Name} (h : IsDigitName s) :
    digitsVal s < 10 ^ s.length := by
  induction s with
  | nil => simp [digitsVal]
  | cons c cs ih =>
    rw [digitsVal_cons]
    have hc := h c (by simp)
    have hcs : IsDigitName cs := fun x hx => h x (by simp [hx])
    have h9 : digitVal c ≤ 9 := by unfold digitVal; omega
    calc digitVal c * 10 ^ cs.length + digitsVal cs
        < digitVal c * 10 ^ cs.length + 10 ^ cs.length := by
          exact Nat.add_lt_add_left (ih hcs) _
      _ = (digitVal c + 1) * 10 ^ cs.length := by ring
      _ ≤ 10 * 10 ^ cs.length := Nat.mul_le_mul_right _ (by omega)
      _ = 10 ^ (c :: cs).length := by rw [List.length_cons]; ring

theorem natStrAux_congr : ∀ f₁ f₂ n : ℕ, n < f₁ → n < f₂ → natStrAux f₁ n = natStrAux f₂ n := by
  intro f₁
  induction f₁ with
  | zero => intro f₂ n h; omega
  | succ f ih =>
    intro f₂ n h1 h2
    cases f₂ with
    | zero => omega
    | succ g =>
      by_cases h10 : n < 10
      · simp [natStrAux, h10]
      · have hd : n / 10 < n := Nat.div_lt_self (by omega) (by omega)
        simp only [natStrAux, if_neg h10]
        rw [ih g (n / 10) (by omega) (by omega)]

theorem natStr_eq (n : ℕ) :
    natStr n =
      if n < 10 then [Nat.digitChar n]
      else natStr (n / 10) ++ [Nat.digitChar (n % 10)] := by
  show natStrAux (n + 1) n = _
  by_cases h : n < 10
  · simp [natStrAux, h]
  · have hd : n / 10 < n := Nat.div_lt_self (by omega) (by omega)
    simp only [natStrAux, if_neg h]
    rw [natStrAux_congr n (n / 10 + 1) (n / 10) (by omega) (by omega)]
    rfl

theorem digitChar_toNat {d : ℕ} (h : d < 10) : (Nat.digitChar d).toNat = 48 + d := by
  interval_cases d <;> decide

theorem digitVal_digitChar {d : ℕ} (h : d < 10) : digitVal (Nat.digitChar d) = d := by
  unfold digitVal
  rw [digitChar_toNat h]
  omega

theorem natStr_isDigit (n : ℕ) : IsDigitName (natStr n) := by
  induction n using Nat.strong_induction_on with
  | _ n ih =>
    rw [natStr_eq]
    by_cases h : n < 10
    · simp only [if_pos h]
      intro c hc
      rw [List.mem_singleton] at hc
      subst hc
      rw [digitChar_toNat h]
      omega
    · simp only [if_neg h]
      intro c hc
      rcases List.mem_append.mp hc with h1 | h1
      · exact ih (n / 10) (Nat.div_lt_self (by omega) (by omega)) c h1
      · rw [List.mem_singleton] at h1
        subst h1
        rw [digitChar_toNat (Nat.mod_lt _ (by omega))]
        have := Nat.mod_lt n (show 0 < 10 by omega)
        omega

theorem digitsVal_natStr (n : ℕ) : digitsVal (natStr n) = n := by
  induction n using Nat.strong_induction_on with
  | _ n ih =>
    rw [natStr_eq]
    by_cases h : n < 10
    · simp only [if_pos h]
      show 10 * 0 + digitVal (Nat.digitChar n) = n
      rw [digitVal_digitChar h]
      omega
    · simp only [if_neg h]
      rw [digitsVal_append_singleton, ih (n / 10) (Nat.div_lt_self (by omega) (by omega)),
        digitVal_digitChar (Nat.mod_lt _ (by omega))]
      omega

theorem natStr_length_pos (n : ℕ) : 0 < (natStr n).length := by
  rw [natStr_eq]
  by_cases h : n < 10 <;> simp [h]

theorem natStr_length_le {m n : ℕ} (h : m ≤ n) : (natStr m).length ≤ (natStr n).length := by
  induction n using Nat.strong_induction_on generalizing m with
  | _ n ih =>
    by_cases hn : n < 10
    · have hm : m < 10 := by omega
      rw [natStr_eq m, natStr_eq n, if_pos hm, if_pos hn]
      simp
    · rw [natStr_eq n, if_neg hn]
      by_cases hm : m < 10
      · rw [natStr_eq m, if_pos hm]
        simp
      · rw [natStr_eq m, if_neg hm]
        rw [List.length_append, List.length_append]
        have : (natStr (m / 10)).length ≤ (natStr (n / 10)).length :=
          ih (n / 10) (Nat.div_lt_self (by omega) (by omega)) (Nat.div_le_div_right h)
        simp only [List.length_singleton]
        omega

theorem zfill_length {s : Name} {w : ℕ} (h : s.length ≤ w) : (zfill w s).length = w := by
  unfold zfill
  rw [List.length_append, List.length_replicate]
  omega

theorem digitsVal_zfill (w : ℕ) (s : Name) : digitsVal (zfill w s) = digitsVal s := by
  show digitsVal (List.replicate (w - s.length) '0' ++ s) = digitsVal s
  unfold digitsVal
  rw [List.foldl_append]
  congr 1
  induction (w - s.length) with
  | zero => rfl
  | succ k ihk =>
    rw [List.replicate_succ, List.foldl_cons]
    have h0 : 10 * 0 + digitVal '0' = 0 := by decide
    rw [h0, ihk]

theorem zfill_isDigit {s : Name} (h : IsDigitName s) (w : ℕ) : IsDigitName (zfill w s) := by
  intro c hc
  rcases List.mem_append.mp hc with h1 | h1
  · rw [List.eq_of_mem_replicate h1]
    decide
  · exact h c h1

theorem lexLe_append_of_val_lt {u v : Name} (hlen : u.length = v.length)
    (hu : IsDigitName u) (hv : IsDigitName v) (hval : digitsVal u < digitsVal v)
    (s t : Name) : lexLe (u ++ s) (v ++ t) = true := by
  induction u generalizing v with
  | nil =>
    cases v with
    | nil => exact absurd hval (by simp [digitsVal])
    | cons b bs => exact absurd hlen (by simp)
  | cons a as ih =>
    cases v with
    | nil => exact absurd hlen (by simp)
    | cons b bs =>
      have hlen' : as.length = bs.length := by simpa using hlen
      have ha := hu a (by simp)
      have hb := hv b (by simp)
      have has : IsDigitName as := fun x hx => hu x (by simp [hx])
      have hbs : IsDigitName bs := fun x hx => hv x (by simp [hx])
      rw [digitsVal_cons, digitsVal_cons, hlen'] at hval
      rcases lt_trichotomy a b with h | h | h
      · exact (lexLe_cons _ _ _ _).mpr (Or.inl h)
      · subst h
        have hrec : digitsVal as < digitsVal bs := by omega
        exact (lexLe_cons _ _ _ _).mpr (Or.inr ⟨rfl, ih hlen' has hbs hrec⟩)
      · exfalso
        have hba : b.toNat < a.toNat := h
        have hdv : digitVal b + 1 ≤ digitVal a := by unfold digitVal; omega
        have h1 : digitsVal bs < 10 ^ bs.length := digitsVal_lt_of_digits hbs
        have h3 : digitVal b * 10 ^ bs.length + 10 ^ bs.length ≤ digitVal a * 10 ^ bs.length := by
          calc digitVal b * 10 ^ bs.length + 10 ^ bs.length
              = (digitVal b + 1) * 10 ^ bs.length := by ring
            _ ≤ digitVal a * 10 ^ bs.length := Nat.mul_le_mul_right _ hdv
        omega

theorem zfill_natStr_inj {i j : ℕ}
    (h : zfill ((natStr i).length ⊔ (natStr j).length) (natStr i) =
      zfill ((natStr i).length ⊔ (natStr j).length) (natStr j)) : i = j := by
  have := congrArg digitsVal h
  rwa [digitsVal_zfill, digitsVal_zfill, digitsVal_natStr, digitsVal_natStr] at this

theorem targetName_inj {pfx : Name} {dg i j : ℕ} {fni fnj : Name}
    (hi : (natStr i).length ≤ dg) (hj : (natStr j).length ≤ dg)
    (h : targetName pfx dg i fni = targetName pfx dg j fnj) : i = j := by
  unfold targetName at h
  rw [List.append_assoc, List.append_assoc] at h
  have h1 := List.append_cancel_left h
  have h2 := (List.append_inj h1 (by rw [zfill_length hi, zfill_length hj])).1
  have h3 := congrArg digitsVal h2
  rwa [digitsVal_zfill, digitsVal_zfill, digitsVal_natStr, digitsVal_natStr] at h3

theorem targetName_le {pfx : Name} {dg i j : ℕ} (fni fnj : Name)
    (hi : (natStr i).length ≤ dg) (hj : (natStr j).length ≤ dg) (hij : i < j) :
    nameLe (targetName pfx dg i fni) (targetName pfx dg j fnj) := by
  unfold nameLe targetName
  rw [List.append_assoc, List.append_assoc, lexLe_append_left]
  exact lexLe_append_of_val_lt (by rw [zfill_length hi, zfill_length hj])
    (zfill_isDigit (natStr_isDigit i) _) (zfill_isDigit (natStr_isDigit j) _)
    (by rw [digitsVal_zfill, digitsVal_zfill, digitsVal_natStr, digitsVal_natStr]; exact hij)
    _ _

/-! ### Extension extraction -/

theorem toNat_ofNat_of_valid {n : ℕ} (h : n.isValidChar) : (Char.ofNat n).toNat = n := by
  rw [Char.ofNat, dif_pos h]
  rfl

theorem toLower_toNat (c : Char) :
    (Char.toLower c).toNat =
      if c.toNat ≥ 65 ∧ c.toNat ≤ 90 then c.toNat + 32 else c.toNat := by
  by_cases h : c.toNat ≥ 65 ∧ c.toNat ≤ 90
  · rw [if_pos h]
    show (Char.toLower c).toNat = c.toNat + 32
    simp only [Char.toLower]
    rw [if_pos h]
    exact toNat_ofNat_of_valid (Or.inl (by omega))
  · rw [if_neg h]
    simp only [Char.toLower]
    rw [if_neg h]

theorem toLower_eq_dot {c : Char} (h : Char.toLower c = '.') : c = '.' := by
  have h1 := congrArg Char.toNat h
  rw [toLower_toNat] at h1
  have hdot : ('.' : Char).toNat = 46 := rfl
  by_cases h2 : c.toNat ≥ 65 ∧ c.toNat ≤ 90
  · rw [if_pos h2] at h1
    omega
  · rw [if_neg h2] at h1
    exact char_toNat_inj (by rw [h1])

theorem splitLastDot_eq_none {t : Name} (h : ∀ c ∈ t, c ≠ '.') : splitLastDot t = none := by
  induction t with
  | nil => rfl
  | cons c r ih =>
    have hc : c ≠ '.' := h c (by simp)
    have hr := ih fun x hx => h x (by simp [hx])
    simp [splitLastDot, hr, hc]

theorem splitLastDot_none_nodot : ∀ {t : Name}, splitLastDot t = none → ∀ c ∈ t, c ≠ '.' := by
  intro t
  induction t with
  | nil => intro _ c hc; simp at hc
  | cons c r ih =>
    intro h x hx
    cases hsr : splitLastDot r with
    | some p =>
      exfalso
      obtain ⟨b, e⟩ := p
      simp [splitLastDot, hsr] at h
    | none =>
      simp only [splitLastDot, hsr] at h
      by_cases hc : c = '.'
      · rw [if_pos hc] at h
        exact absurd h (by simp)
      · rcases List.mem_cons.mp hx with rfl | hxr
        · exact hc
        · exact ih hsr x hxr

theorem splitLastDot_append {a t : Name} (h : ∀ c ∈ t, c ≠ '.') :
    splitLastDot (a ++ '.' :: t) = some (a, '.' :: t) := by
  induction a with
  | nil =>
    show splitLastDot ('.' :: t) = some ([], '.' :: t)
    have hn := splitLastDot_eq_none h
    simp [splitLastDot, hn]
  | cons c as ih =>
    show splitLastDot (c :: (as ++ '.' :: t)) = _
    simp [splitLastDot, ih]

theorem splitLastDot_spec : ∀ {n b e : Name}, splitLastDot n = some (b, e) →
    n = b ++ e ∧ ∃ t, e = '.' :: t ∧ ∀ c ∈ t, c ≠ '.' := by
  intro n
  induction n with
  | nil => intro b e h; simp [splitLastDot] at h
  | cons c r ih =>
    intro b e h
    cases hsr : splitLastDot r with
    | some p =>
      obtain ⟨b', e'⟩ := p
      simp only [splitLastDot, hsr] at h
      obtain ⟨hb, he⟩ : c :: b' = b ∧ e' = e := by
        constructor <;> [exact congrArg Prod.fst (Option.some.inj h);
          exact congrArg Prod.snd (Option.some.inj h)]
      obtain ⟨h1, h2⟩ := ih hsr
      subst hb
      subst he
      exact ⟨by rw [List.cons_append, ← h1], h2⟩
    | none =>
      simp only [splitLastDot, hsr] at h
      by_cases hc : c = '.'
      · rw [if_pos hc] at h
        obtain ⟨hb, he⟩ : ([] : Name) = b ∧ c :: r = e := by
          constructor <;> [exact congrArg Prod.fst (Option.some.inj h);
            exact congrArg Prod.snd (Option.some.inj h)]
        subst hb
        subst he
        exact ⟨rfl, r, by rw [hc], splitLastDot_none_nodot hsr⟩
      · rw [if_neg hc] at h
        simp at h

theorem lowerName_append (a b : Name) :
    lowerName (a ++ b) = lowerName a ++ lowerName b := by
  unfold lowerName
  exact List.map_append _ _ _

theorem extOf_append_ext {a e : Name} (he : e = jpgSuffix ∨ e = jpegSuffix)
    (ha : a.any (fun c => c ≠ '.') = true) : extOf (a ++ e) = e := by
  have hs : ∃ t, e = '.' :: t ∧ ∀ c ∈ t, c ≠ '.' := by
    rcases he with rfl | rfl
    · exact ⟨['j', 'p', 'g'], rfl, by decide⟩
    · exact ⟨['j', 'p', 'e', 'g'], rfl, by decide⟩
  obtain ⟨t, rfl, ht⟩ := hs
  unfold extOf
  rw [splitLastDot_append ht]
  show (if (a.any fun c => c ≠ '.') = true then '.' :: t else []) = '.' :: t
  rw [if_pos ha]

theorem matched_ext_aux {x t : Name} (ht : ∀ c ∈ t, c ≠ '.')
    (hsuf : ('.' :: t) <:+ lowerName x) (hne : extOf x ≠ []) :
    lowerName (extOf x) = '.' :: t := by
  obtain ⟨w, hw⟩ := hsuf
  have hx : x = x.take w.length ++ x.drop w.length := (List.take_append_drop _ _).symm
  have hmapdrop : lowerName (x.drop w.length) = '.' :: t := by
    have h1 : lowerName (x.drop w.length) = (lowerName x).drop w.length := by
      unfold lowerName
      exact List.map_drop _ _ _
    rw [h1, ← hw]
    exact List.drop_left _ _
  cases he : x.drop w.length with
  | nil => rw [he] at hmapdrop; simp [lowerName] at hmapdrop
  | cons c e' =>
    rw [he] at hmapdrop hx
    have hmc : Char.toLower c :: lowerName e' = '.' :: t := by
      simpa [lowerName] using hmapdrop
    have hc : Char.toLower c = '.' := (List.cons.inj hmc).1
    have he'low : lowerName e' = t := (List.cons.inj hmc).2
    have hcdot : c = '.' := toLower_eq_dot hc
    subst hcdot
    have he'nodot : ∀ d ∈ e', d ≠ '.' := by
      intro d hd hcon
      subst hcon
      have hmem : Char.toLower '.' ∈ t := by
        rw [← he'low]
        exact List.mem_map_of_mem _ hd
      exact (ht _ hmem) (by decide)
    have hsplit : splitLastDot x = some (x.take w.length, '.' :: e') := by
      conv_lhs => rw [hx]
      exact splitLastDot_append he'nodot
    by_cases hb2 : ((x.take w.length).any fun c => c ≠ '.') = true
    · have hext : extOf x = '.' :: e' := by
        unfold extOf
        rw [hsplit]
        show (if ((x.take w.length).any fun c => c ≠ '.') = true then '.' :: e' else []) =
          '.' :: e'
        rw [if_pos hb2]
      rw [hext]
      show Char.toLower '.' :: lowerName e' = '.' :: t
      have hld : Char.toLower '.' = '.' := by decide
      rw [hld, he'low]
    · exfalso
      apply hne
      unfold extOf
      rw [hsplit]
      show (if ((x.take w.length).any fun c => c ≠ '.') = true then '.' :: e' else []) = []
      rw [if_neg hb2]

theorem matched_ext {x : Name} (hm : isJpegCI x = true) (hne : extOf x ≠ []) :
    lowerName (extOf x) = jpgSuffix ∨ lowerName (extOf x) = jpegSuffix := by
  unfold isJpegCI at hm
  rw [Bool.or_eq_true] at hm
  rcases hm with hm | hm
  · exact Or.inl (matched_ext_aux (by decide) (List.isSuffixOf_iff_suffix.mp hm) hne)
  · exact Or.inr (matched_ext_aux (by decide) (List.isSuffixOf_iff_suffix.mp hm) hne)

theorem zfill_natStr_any (dg i : ℕ) :
    ((zfill dg (natStr i)).any fun c => c ≠ '.') = true := by
  rw [List.any_eq_true]
  have hpos := natStr_length_pos i
  obtain ⟨c, hc⟩ : ∃ c, c ∈ natStr i := by
    cases h : natStr i with
    | nil => rw [h] at hpos; simp at hpos
    | cons a l => exact ⟨a, by simp [h]⟩
  refine ⟨c, List.mem_append_right _ hc, ?_⟩
  have hd := natStr_isDigit i c hc
  have hdot : ('.' : Char).toNat = 46 := rfl
  simp only [ne_eq, decide_eq_true_eq]
  intro hcon
  rw [hcon] at hd
  omega

theorem targetName_matched {pfx : Name} {dg i : ℕ} {fn : Name}
    (he : lowerName (extOf fn) = jpgSuffix ∨ lowerName (extOf fn) = jpegSuffix) :
    isJpegCI (targetName pfx dg i fn) = true := by
  unfold isJpegCI targetName
  rw [Bool.or_eq_true]
  rcases he with he | he
  · left
    rw [he, lowerName_append]
    have h2 : lowerName jpgSuffix = jpgSuffix := by decide
    rw [h2]
    exact List.isSuffixOf_iff_suffix.mpr (List.suffix_append _ _)
  · right
    rw [he, lowerName_append]
    have h2 : lowerName jpegSuffix = jpegSuffix := by decide
    rw [h2]
    exact List.isSuffixOf_iff_suffix.mpr (List.suffix_append _ _)

theorem targetName_ext {pfx : Name} {dg i : ℕ} {fn : Name}
    (he : lowerName (extOf fn) = jpgSuffix ∨ lowerName (extOf fn) = jpegSuffix) :
    extOf (targetName pfx dg i fn) = lowerName (extOf fn) := by
  unfold targetName
  exact extOf_append_ext he (by rw [List.any_append, zfill_natStr_any, Bool.or_true])

theorem targetName_idem {pfx : Name} {dg i : ℕ} {fn : Name}
    (he : lowerName (extOf fn) = jpgSuffix ∨ lowerName (extOf fn) = jpegSuffix) :
    targetName pfx dg i (targetName pfx dg i fn) = targetName pfx dg i fn := by
  unfold targetName
  rw [extOf_append_ext he (by rw [List.any_append, zfill_natStr_any, Bool.or_true])]
  rcases he with he | he <;> rw [he]
  · have h2 : lowerName jpgSuffix = jpgSuffix := by decide
    rw [h2]
  · have h2 : lowerName jpegSuffix = jpegSuffix := by decide
    rw [h2]

/-! ### The rename loop -/

theorem renameStep_def (pfx : Name) (dg : ℕ) (st : List Name) (c i : ℕ) (fn : Name) :
    renameStep pfx dg (st, c) (i, fn) =
      if fn = targetName pfx dg i fn then (st, c)
      else if targetName pfx dg i fn ∈ st then (st, c + 1)
      else (st.map fun x => if x = fn then targetName pfx dg i fn else x, c) := rfl

theorem renameStep_counter_le (pfx : Name) (dg : ℕ) (acc : List Name × ℕ) (p : ℕ × Name) :
    acc.2 ≤ (renameStep pfx dg acc p).2 := by
  obtain ⟨st, c⟩ := acc
  obtain ⟨i, fn⟩ := p
  rw [renameStep_def]
  by_cases h1 : fn = targetName pfx dg i fn
  · rw [if_pos h1]
  · rw [if_neg h1]
    by_cases h2 : targetName pfx dg i fn ∈ st
    · rw [if_pos h2]
      exact Nat.le_succ _
    · rw [if_neg h2]

theorem foldl_counter_le (pfx : Name) (dg : ℕ) :
    ∀ (L : List (ℕ × Name)) (acc : List Name × ℕ),
      acc.2 ≤ (L.foldl (renameStep pfx dg) acc).2 := by
  intro L
  induction L with
  | nil => intro acc; exact le_refl _
  | cons p L ih =>
    intro acc
    calc acc.2 ≤ (renameStep pfx dg acc p).2 := renameStep_counter_le pfx dg acc p
      _ ≤ _ := by rw [List.foldl_cons]; exact ih _

theorem substOf_not_mem {pfx : Name} {dg : ℕ} {L : List (ℕ × Name)} {x : Name}
    (h : x ∉ L.map Prod.snd) : substOf pfx dg L x = x := by
  induction L with
  | nil => rfl
  | cons p L ih =>
    have hx : x ≠ p.2 := fun hcon => h (by simp [hcon])
    simp only [substOf]
    rw [if_neg hx]
    exact ih fun hc => h (by simp [hc])

theorem substOf_mem {pfx : Name} {dg : ℕ} {L : List (ℕ × Name)} {i : ℕ} {fn : Name}
    (hnd : (L.map Prod.snd).Nodup) (hmem : (i, fn) ∈ L) :
    substOf pfx dg L fn = targetName pfx dg i fn := by
  induction L with
  | nil => simp at hmem
  | cons p L ih =>
    rw [List.map_cons, List.nodup_cons] at hnd
    rcases List.mem_cons.mp hmem with heq | htail
    · subst heq
      simp only [substOf]
      simp
    · have hfn : fn ∈ L.map Prod.snd := by
        have := List.mem_map_of_mem Prod.snd htail
        exact this
      have hne : fn ≠ p.2 := fun hcon => hnd.1 (hcon ▸ hfn)
      simp only [substOf]
      rw [if_neg hne]
      exact ih hnd.2 htail

theorem snd_mem_of_mem_enumFrom {α : Type*} {p : ℕ × α} {n : ℕ} {l : List α}
    (h : p ∈ List.enumFrom n l) : p.2 ∈ l := by
  have := List.mem_map_of_mem Prod.snd h
  rwa [List.enumFrom_map_snd] at this

theorem foldl_all_self (pfx : Name) (dg : ℕ) :
    ∀ (L : List (ℕ × Name)) (acc : List Name × ℕ),
      (∀ p ∈ L, p.2 = targetName pfx dg p.1 p.2) →
      L.foldl (renameStep pfx dg) acc = acc := by
  intro L
  induction L with
  | nil => intro acc _; rfl
  | cons q L ih =>
    intro acc hall
    obtain ⟨i, fn⟩ := q
    obtain ⟨st, c⟩ := acc
    rw [List.foldl_cons, renameStep_def, if_pos (hall (i, fn) (by simp))]
    exact ih _ fun p hp => hall p (by simp [hp])

theorem substOf_nil_map (pfx : Name) (dg : ℕ) (st : List Name) :
    st.map (substOf pfx dg []) = st := by
  induction st with
  | nil => rfl
  | cons a l ihl =>
    rw [List.map_cons, ihl]
    rfl

theorem foldl_no_collision (pfx : Name) (dg : ℕ) :
    ∀ (L : List (ℕ × Name)) (st : List Name) (c : ℕ),
      st.Nodup →
      (L.map Prod.snd).Nodup →
      (∀ p ∈ L, p.2 ∈ st) →
      (L.foldl (renameStep pfx dg) (st, c)).2 = c →
      (L.foldl (renameStep pfx dg) (st, c)).1 = st.map (substOf pfx dg L)
        ∧ (st.map (substOf pfx dg L)).Nodup := by
  intro L
  induction L with
  | nil =>
    intro st c hnd _ _ _
    rw [substOf_nil_map]
    exact ⟨rfl, hnd⟩
  | cons q L ih =>
    intro st c hnd hLnd hmem hnc
    obtain ⟨i, fn⟩ := q
    have hfn_st : fn ∈ st := hmem (i, fn) (by simp)
    rw [List.map_cons, List.nodup_cons] at hLnd
    have hfn_nin : fn ∉ L.map Prod.snd := hLnd.1
    have hLnd' : (L.map Prod.snd).Nodup := hLnd.2
    by_cases h1 : fn = targetName pfx dg i fn
    · have hstep : renameStep pfx dg (st, c) (i, fn) = (st, c) := by
        rw [renameStep_def, if_pos h1]
      rw [List.foldl_cons, hstep] at hnc ⊢
      obtain ⟨ih1, ih2⟩ := ih st c hnd hLnd' (fun p hp => hmem p (by simp [hp])) hnc
      have hsubst : ∀ x ∈ st, substOf pfx dg ((i, fn) :: L) x = substOf pfx dg L x := by
        intro x hx
        by_cases hxfn : x = fn
        · subst hxfn
          simp only [substOf]
          rw [if_pos trivial, substOf_not_mem hfn_nin]
          exact h1.symm
        · simp only [substOf]
          rw [if_neg hxfn]
      constructor
      · rw [ih1, List.map_congr_left hsubst]
      · rw [List.map_congr_left hsubst]
        exact ih2
    · by_cases h2 : targetName pfx dg i fn ∈ st
      · exfalso
        have hstep : renameStep pfx dg (st, c) (i, fn) = (st, c + 1) := by
          rw [renameStep_def, if_neg h1, if_pos h2]
        rw [List.foldl_cons, hstep] at hnc
        have := foldl_counter_le pfx dg L (st, c + 1)
        omega
      · have hstep : renameStep pfx dg (st, c) (i, fn) =
            (st.map fun x => if x = fn then targetName pfx dg i fn else x, c) := by
          rw [renameStep_def, if_neg h1, if_neg h2]
        rw [List.foldl_cons, hstep] at hnc ⊢
        have hst1nd : (st.map fun x => if x = fn then targetName pfx dg i fn else x).Nodup := by
          apply List.Nodup.map_on ?_ hnd
          intro x hx y hy hxy
          by_cases hxf : x = fn <;> by_cases hyf : y = fn
          · rw [hxf, hyf]
          · rw [if_pos hxf, if_neg hyf] at hxy
            exact absurd (by rw [hxy]; exact hy) h2
          · rw [if_neg hxf, if_pos hyf] at hxy
            exact absurd (by rw [← hxy]; exact hx) h2
          · rw [if_neg hxf, if_neg hyf] at hxy
            exact hxy
        have hmem' : ∀ p ∈ L,
            p.2 ∈ st.map fun x => if x = fn then targetName pfx dg i fn else x := by
          intro p hp
          have hpst := hmem p (by simp [hp])
          have hpne : p.2 ≠ fn := fun hcon =>
            hfn_nin (hcon ▸ List.mem_map_of_mem Prod.snd hp)
          exact List.mem_map.mpr ⟨p.2, hpst, by rw [if_neg hpne]⟩
        obtain ⟨ih1, ih2⟩ := ih _ c hst1nd hLnd' hmem' hnc
        have htgt_nin : targetName pfx dg i fn ∉ L.map Prod.snd := by
          intro hcon
          obtain ⟨p, hp, hpe⟩ := List.mem_map.mp hcon
          exact h2 (hpe ▸ hmem p (by simp [hp]))
        have hcomp : ∀ x ∈ st,
            substOf pfx dg L (if x = fn then targetName pfx dg i fn else x) =
              substOf pfx dg ((i, fn) :: L) x := by
          intro x hx
          by_cases hxf : x = fn
          · rw [if_pos hxf, substOf_not_mem htgt_nin]
            simp only [substOf]
            rw [if_pos hxf]
          · rw [if_neg hxf]
            simp only [substOf]
            rw [if_neg hxf]
        have heq : st.map (substOf pfx dg ((i, fn) :: L)) =
            (st.map fun x => if x = fn then targetName pfx dg i fn else x).map
              (substOf pfx dg L) := by
          rw [List.map_map]
          exact (List.map_congr_left fun x hx => hcomp x hx).symm
        constructor
        · rw [ih1, List.map_map]
          exact List.map_congr_left fun x hx => hcomp x hx
        · rw [heq]
          exact ih2

theorem sortedJpgs_perm (st : List Name) :
    (sortedJpgs st).Perm (st.filter fun n => isJpegCI n) :=
  List.perm_insertionSort _ _

theorem sortedJpgs_nodup {st : List Name} (h : st.Nodup) : (sortedJpgs st).Nodup :=
  (sortedJpgs_perm st).symm.nodup (h.filter _)

theorem sortedJpgs_sorted (st : List Name) : List.Sorted nameLe (sortedJpgs st) :=
  List.sorted_insertionSort _ _

theorem mem_sortedJpgs {st : List Name} {x : Name} :
    x ∈ sortedJpgs st ↔ x ∈ st ∧ isJpegCI x = true := by
  rw [(sortedJpgs_perm st).mem_iff, List.mem_filter]

theorem enumFrom_nodup {α : Type*} (n : ℕ) (l : List α) : (List.enumFrom n l).Nodup := by
  apply List.Nodup.of_map Prod.fst
  rw [List.enumFrom_map_fst]
  exact List.nodup_range' _ _

theorem pairwise_fst_enumFrom {α : Type*} (n : ℕ) (l : List α) :
    List.Pairwise (fun p q : ℕ × α => p.1 < q.1) (List.enumFrom n l) := by
  induction l generalizing n with
  | nil => exact List.Pairwise.nil
  | cons a l ih =>
    show List.Pairwise _ ((n, a) :: List.enumFrom (n + 1) l)
    constructor
    · intro q hq
      obtain ⟨i, x⟩ := q
      have := (List.mem_enumFrom hq).1
      show n < i
      omega
    · exact ih (n + 1)

theorem enum_targets_nodup (pfx : Name) (files : List Name) :
    ((List.enumFrom 1 files).map fun p =>
      targetName pfx ((natStr files.length).length) p.1 p.2).Nodup := by
  apply List.Nodup.map_on ?_ (enumFrom_nodup 1 files)
  intro p hp q hq hpq
  obtain ⟨i, x⟩ := p
  obtain ⟨j, y⟩ := q
  obtain ⟨hi1, hi2, hx⟩ := List.mem_enumFrom hp
  obtain ⟨hj1, hj2, hy⟩ := List.mem_enumFrom hq
  have hib : (natStr i).length ≤ (natStr files.length).length := natStr_length_le (by omega)
  have hjb : (natStr j).length ≤ (natStr files.length).length := natStr_length_le (by omega)
  have hij : i = j := targetName_inj hib hjb hpq
  subst hij
  have hxy : x = y := by rw [hx, hy]
  rw [hxy]

theorem enum_targets_sorted (pfx : Name) (files : List Name) :
    List.Sorted nameLe ((List.enumFrom 1 files).map fun p =>
      targetName pfx ((natStr files.length).length) p.1 p.2) := by
  rw [List.Sorted, List.pairwise_map]
  apply List.Pairwise.imp_of_mem ?_ (pairwise_fst_enumFrom 1 files)
  intro p q hpmem hqmem hlt
  obtain ⟨i, x⟩ := p
  obtain ⟨j, y⟩ := q
  obtain ⟨hi1, hi2, -⟩ := List.mem_enumFrom hpmem
  obtain ⟨hj1, hj2, -⟩ := List.mem_enumFrom hqmem
  exact targetName_le x y (natStr_length_le (by omega)) (natStr_length_le (by omega)) hlt

theorem runRename_def (pfx : Name) (st : List Name) :
    runRename pfx st =
      (List.enumFrom 1 (sortedJpgs st)).foldl
        (renameStep pfx ((natStr (sortedJpgs st).length).length)) (st, 0) := rfl

theorem runRename_no_collision {pfx : Name} {st : List Name} (hnd : st.Nodup)
    (hnc : (runRename pfx st).2 = 0) :
    (runRename pfx st).1 =
      st.map (substOf pfx ((natStr (sortedJpgs st).length).length)
        (List.enumFrom 1 (sortedJpgs st)))
    ∧ ((runRename pfx st).1).Nodup := by
  have h1 : ((List.enumFrom 1 (sortedJpgs st)).map Prod.snd).Nodup := by
    rw [List.enumFrom_map_snd]
    exact sortedJpgs_nodup hnd
  have h2 : ∀ p ∈ List.enumFrom 1 (sortedJpgs st), p.2 ∈ st := fun p hp =>
    (mem_sortedJpgs.mp (snd_mem_of_mem_enumFrom hp)).1
  rw [runRename_def] at hnc ⊢
  obtain ⟨ha, hb⟩ := foldl_no_collision pfx _ _ st 0 hnd h1 h2 hnc
  exact ⟨ha, by rw [ha]; exact hb⟩

theorem sortedJpgs_ext {st : List Name}
    (hext : ∀ n ∈ st, isJpegCI n = true → extOf n ≠ []) :
    ∀ x ∈ sortedJpgs st,
      lowerName (extOf x) = jpgSuffix ∨ lowerName (extOf x) = jpegSuffix := by
  intro x hx
  obtain ⟨hx1, hx2⟩ := mem_sortedJpgs.mp hx
  exact matched_ext hx2 (hext x hx1 hx2)

theorem sortedJpgs_after_run {pfx : Name} {st : List Name} (hnd : st.Nodup)
    (hext : ∀ n ∈ st, isJpegCI n = true → extOf n ≠ [])
    (hnc : (runRename pfx st).2 = 0) :
    sortedJpgs (runRename pfx st).1 =
      (List.enumFrom 1 (sortedJpgs st)).map fun p =>
        targetName pfx ((natStr (sortedJpgs st).length).length) p.1 p.2 := by
  obtain ⟨hst', hnd'⟩ := runRename_no_collision hnd hnc
  have hplan_snd : (List.enumFrom 1 (sortedJpgs st)).map Prod.snd = sortedJpgs st :=
    List.enumFrom_map_snd _ _
  have hplan_snd_nd : ((List.enumFrom 1 (sortedJpgs st)).map Prod.snd).Nodup := by
    rw [hplan_snd]
    exact sortedJpgs_nodup hnd
  have hfile_ext := sortedJpgs_ext hext
  have hmem_iff : ∀ a,
      a ∈ (runRename pfx st).1.filter (fun n => isJpegCI n) ↔
        a ∈ (List.enumFrom 1 (sortedJpgs st)).map fun p =>
          targetName pfx ((natStr (sortedJpgs st).length).length) p.1 p.2 := by
    intro a
    rw [List.mem_filter, hst']
    constructor
    · rintro ⟨hmem, hmt⟩
      obtain ⟨y, hy, hsy⟩ := List.mem_map.mp hmem
      by_cases hyf : y ∈ sortedJpgs st
      · have hyplan : y ∈ (List.enumFrom 1 (sortedJpgs st)).map Prod.snd := by
          rw [hplan_snd]
          exact hyf
        obtain ⟨p, hp, hpe⟩ := List.mem_map.mp hyplan
        refine List.mem_map.mpr ⟨p, hp, ?_⟩
        have hσ := @substOf_mem pfx ((natStr (sortedJpgs st).length).length) _ _ _
          hplan_snd_nd hp
        rw [← hsy, ← hpe, hσ]
      · have hymat : isJpegCI y = false := by
          cases hb : isJpegCI y
          · rfl
          · exact absurd (mem_sortedJpgs.mpr ⟨hy, hb⟩) hyf
        have hynot : y ∉ (List.enumFrom 1 (sortedJpgs st)).map Prod.snd := by
          rw [hplan_snd]
          exact hyf
        rw [← hsy, substOf_not_mem hynot] at hmt
        rw [hymat] at hmt
        exact absurd hmt (by simp)
    · intro hp0
      obtain ⟨p, hp, hpe⟩ := List.mem_map.mp hp0
      have hpst : p.2 ∈ st := (mem_sortedJpgs.mp (snd_mem_of_mem_enumFrom hp)).1
      refine ⟨?_, ?_⟩
      · refine List.mem_map.mpr ⟨p.2, hpst, ?_⟩
        rw [← hpe]
        exact substOf_mem hplan_snd_nd hp
      · rw [← hpe]
        exact targetName_matched (hfile_ext p.2 (snd_mem_of_mem_enumFrom hp))
  exact List.eq_of_perm_of_sorted
    ((List.perm_insertionSort _ _).trans
      ((List.perm_ext_iff_of_nodup (hnd'.filter _) (enum_targets_nodup pfx _)).mpr hmem_iff))
    (sortedJpgs_sorted _) (enum_targets_sorted pfx _)

theorem run2_noop {pfx : Name} {st : List Name} (hnd : st.Nodup)
    (hext : ∀ n ∈ st, isJpegCI n = true → extOf n ≠ [])
    (hnc : (runRename pfx st).2 = 0) :
    runRename pfx (runRename pfx st).1 = ((runRename pfx st).1, 0) := by
  have hsort2 := sortedJpgs_after_run hnd hext hnc
  have hfile_ext := sortedJpgs_ext hext
  rw [runRename_def, hsort2, List.length_map, List.enumFrom_length]
  apply foldl_all_self
  intro p hp
  obtain ⟨i, x⟩ := p
  obtain ⟨hi1, hi2, hx⟩ := List.mem_enumFrom hp
  rw [List.length_map, List.enumFrom_length] at hi2
  simp only [List.getElem_map, List.getElem_enumFrom] at hx
  have hi' : 1 + (i - 1) = i := by omega
  rw [hi'] at hx
  show x = targetName pfx ((natStr (sortedJpgs st).length).length) i x
  have hbound : i - 1 < (sortedJpgs st).length := by omega
  have hfs : (sortedJpgs st)[i - 1] ∈ sortedJpgs st := List.getElem_mem _
  have he := hfile_ext _ hfs
  rw [hx]
  exact (targetName_idem he).symm

theorem renameStep_length (pfx : Name) (dg : ℕ) (acc : List Name × ℕ) (p : ℕ × Name) :
    (renameStep pfx dg acc p).1.length = acc.1.length := by
  obtain ⟨st, c⟩ := acc
  obtain ⟨i, fn⟩ := p
  rw [renameStep_def]
  by_cases h1 : fn = targetName pfx dg i fn
  · rw [if_pos h1]
  · rw [if_neg h1]
    by_cases h2 : targetName pfx dg i fn ∈ st
    · rw [if_pos h2]
    · rw [if_neg h2]
      exact List.length_map _ _

theorem renameStep_nodup (pfx : Name) (dg : ℕ) {st : List Name} (c : ℕ) (p : ℕ × Name)
    (hnd : st.Nodup) : (renameStep pfx dg (st, c) p).1.Nodup := by
  obtain ⟨i, fn⟩ := p
  rw [renameStep_def]
  by_cases h1 : fn = targetName pfx dg i fn
  · rw [if_pos h1]
    exact hnd
  · rw [if_neg h1]
    by_cases h2 : targetName pfx dg i fn ∈ st
    · rw [if_pos h2]
      exact hnd
    · rw [if_neg h2]
      apply List.Nodup.map_on ?_ hnd
      intro x hx y hy hxy
      by_cases hxf : x = fn <;> by_cases hyf : y = fn
      · rw [hxf, hyf]
      · rw [if_pos hxf, if_neg hyf] at hxy
        exact absurd (by rw [hxy]; exact hy) h2
      · rw [if_neg hxf, if_pos hyf] at hxy
        exact absurd (by rw [← hxy]; exact hx) h2
      · rw [if_neg hxf, if_neg hyf] at hxy
        exact hxy

theorem foldl_length (pfx : Name) (dg : ℕ) :
    ∀ (L : List (ℕ × Name)) (acc : List Name × ℕ),
      (L.foldl (renameStep pfx dg) acc).1.length = acc.1.length := by
  intro L
  induction L with
  | nil => intro acc; rfl
  | cons p L ih =>
    intro acc
    rw [List.foldl_cons, ih (renameStep pfx dg acc p), renameStep_length]

theorem foldl_nodup (pfx : Name) (dg : ℕ) :
    ∀ (L : List (ℕ × Name)) (st : List Name) (c : ℕ),
      st.Nodup → ((L.foldl (renameStep pfx dg) (st, c)).1).Nodup := by
  intro L
  induction L with
  | nil => intro st c hnd; exact hnd
  | cons p L ih =>
    intro st c hnd
    rw [List.foldl_cons]
    rcases hstep : renameStep pfx dg (st, c) p with ⟨st₁, c₁⟩
    have h1 : st₁.Nodup := by
      have := renameStep_nodup pfx dg c p hnd
      rwa [hstep] at this
    exact ih st₁ c₁ h1

theorem runRename_length (pfx : Name) (st : List Name) :
    (runRename pfx st).1.length = st.length := by
  rw [runRename_def]
  exact foldl_length pfx _ _ _

theorem runRename_nodup {pfx : Name} {st : List Name} (hnd : st.Nodup) :
    (runRename pfx st).1.Nodup := by
  rw [runRename_def]
  exact foldl_nodup pfx _ _ st 0 hnd

theorem compressImage_eq (ops : ImagingOps) (inputPath : String)
    (outputPath : Option String) (maxW maxH quality n : ℕ)
    (hok : ops.getsize inputPath = Except.ok n) :
    compressImage ops inputPath outputPath maxW maxH quality =
      match tryBody ops inputPath (outputPath.getD inputPath) maxW maxH
          (standardSaveKwargs quality) with
      | Except.ok c => Except.ok (n, c)
      | Except.error _ => Except.ok (n, n) := by
  unfold compressImage
  rw [hok]

theorem compressImageUltra_eq (ops : ImagingOps) (inputPath : String)
    (outputPath : Option String) (maxW maxH quality : ℕ) (progressive : Bool) (n : ℕ)
    (hok : ops.getsize inputPath = Except.ok n) :
    compressImageUltra ops inputPath outputPath maxW maxH quality progressive =
      match tryBody ops inputPath (outputPath.getD inputPath) maxW maxH
          (ultraSaveKwargs quality progressive) with
      | Except.ok c => Except.ok (n, c)
      | Except.error _ => Except.ok (n, n) := by
  unfold compressImageUltra
  rw [hok]

/-! ### Claim theorems -/

/-- C2: for every folder and prefix, the rename utility sorts the JPEG-matched
filenames (matched case-insensitively) ascending lexicographically, assigns
indices 1..N in that order, pads each index to the digit count of N, and maps
each source to `prefix ++ zero-padded index ++ lowercased extension`; on a
duplicate-free folder the resulting source and target lists are each
duplicate-free, so the plan is a bijection from sources onto targets.  In
particular `a.JPEG, b.jpg, c.jpeg` with prefix `dog_` yields
`dog_1.jpeg, dog_2.jpg, dog_3.jpeg`. -/
theorem rename_plan_bijection (pfx : Name) (st : List Name) (hnd : st.Nodup) :
    renamePlan pfx st =
      (List.enumFrom 1 (sortedJpgs st)).map (fun p =>
        (p.2, targetName pfx ((natStr (sortedJpgs st).length).length) p.1 p.2))
  ∧ (renamePlan pfx st).map Prod.fst = sortedJpgs st
  ∧ List.Sorted nameLe (sortedJpgs st)
  ∧ (sortedJpgs st).Perm (st.filter fun n => isJpegCI n)
  ∧ ((renamePlan pfx st).map Prod.fst).Nodup
  ∧ ((renamePlan pfx st).map Prod.snd).Nodup
  ∧ renamePlan "dog_".toList ["b.jpg".toList, "a.JPEG".toList, "c.jpeg".toList] =
      [("a.JPEG".toList, "dog_1.jpeg".toList), ("b.jpg".toList, "dog_2.jpg".toList),
        ("c.jpeg".toList, "dog_3.jpeg".toList)] := by
  have hfst : (renamePlan pfx st).map Prod.fst = sortedJpgs st := by
    show ((List.enumFrom 1 (sortedJpgs st)).map _).map Prod.fst = _
    rw [List.map_map]
    have hcomp : (Prod.fst ∘ fun p : ℕ × Name =>
        (p.2, targetName pfx ((natStr (sortedJpgs st).length).length) p.1 p.2)) =
          Prod.snd := rfl
    rw [hcomp, List.enumFrom_map_snd]
  have hsnd : (renamePlan pfx st).map Prod.snd =
      (List.enumFrom 1 (sortedJpgs st)).map fun p =>
        targetName pfx ((natStr (sortedJpgs st).length).length) p.1 p.2 := by
    show ((List.enumFrom 1 (sortedJpgs st)).map _).map Prod.snd = _
    rw [List.map_map]
    rfl
  refine ⟨rfl, hfst, sortedJpgs_sorted st, sortedJpgs_perm st, ?_, ?_, by decide⟩
  · rw [hfst]
    exact sortedJpgs_nodup hnd
  · rw [hsnd]
    exact enum_targets_nodup pfx _

/-- C2 witness: the bijection instantiated on the three-file dog folder. -/
theorem rename_plan_bijection_witness :
    ((renamePlan "dog_".toList ["b.jpg".toList, "a.JPEG".toList, "c.jpeg".toList]).map
      Prod.snd).Nodup :=
  (rename_plan_bijection "dog_".toList ["b.jpg".toList, "a.JPEG".toList, "c.jpeg".toList]
    (by decide)).2.2.2.2.2.1

/-- C3 counterexample: when the pre-`try` size query `os.path.getsize(input_path)`
raises (e.g. the file vanished), the error is NOT caught: `compress_image` and
`compress_image_ultra` propagate it instead of returning
`(original_size, original_size)`. -/
theorem compress_error_propagates_cex :
    compressImage missingFileOps "a.jpg" none 600 600 60 = Except.error "ENOENT"
  ∧ compressImageUltra missingFileOps "a.jpg" none 400 400 40 true = Except.error "ENOENT" :=
  ⟨rfl, rfl⟩

/-- C3 (amended): provided the initial `os.path.getsize(input_path)` succeeds
with size n, `compress_image` and `compress_image_ultra` never propagate an
exception: they return `Except.ok (n, c)` for some c, and whenever any step of
the `try:` body (decode, convert, resize, encode, output size query) fails the
result is the zero-effect pair `(n, n)`; an error in the initial size query
itself, which runs before the `try:`, is not covered. -/
theorem compress_error_boundary (ops : ImagingOps) (inputPath : String)
    (outputPath : Option String) (maxW maxH quality : ℕ) (progressive : Bool) (n : ℕ)
    (hok : ops.getsize inputPath = Except.ok n) :
    (∃ c, compressImage ops inputPath outputPath maxW maxH quality = Except.ok (n, c))
  ∧ (∀ e, tryBody ops inputPath (outputPath.getD inputPath) maxW maxH
        (standardSaveKwargs quality) = Except.error e →
        compressImage ops inputPath outputPath maxW maxH quality = Except.ok (n, n))
  ∧ (∃ c, compressImageUltra ops inputPath outputPath maxW maxH quality progressive =
        Except.ok (n, c))
  ∧ (∀ e, tryBody ops inputPath (outputPath.getD inputPath) maxW maxH
        (ultraSaveKwargs quality progressive) = Except.error e →
        compressImageUltra ops inputPath outputPath maxW maxH quality progressive =
          Except.ok (n, n)) := by
  refine ⟨?_, ?_, ?_, ?_⟩
  · rw [compressImage_eq ops inputPath outputPath maxW maxH quality n hok]
    cases htb : tryBody ops inputPath (outputPath.getD inputPath) maxW maxH
        (standardSaveKwargs quality) with
    | ok c => exact ⟨c, rfl⟩
    | error e => exact ⟨n, rfl⟩
  · intro e htb
    rw [compressImage_eq ops inputPath outputPath maxW maxH quality n hok, htb]
  · rw [compressImageUltra_eq ops inputPath outputPath maxW maxH quality progressive n hok]
    cases htb : tryBody ops inputPath (outputPath.getD inputPath) maxW maxH
        (ultraSaveKwargs quality progressive) with
    | ok c => exact ⟨c, rfl⟩
    | error e => exact ⟨n, rfl⟩
  · intro e htb
    rw [compressImageUltra_eq ops inputPath outputPath maxW maxH quality progressive n hok,
      htb]

/-- C3 witness: a concrete run whose decode fails inside the `try:` block. -/
theorem compress_error_boundary_witness :
    modeSetOps.getsize "in.jpg" = Except.ok 100
  ∧ (∃ c, compressImage modeSetOps "in.jpg" none 600 600 60 = Except.ok (100, c)) :=
  ⟨rfl, (compress_error_boundary modeSetOps "in.jpg" none 600 600 60 true 100 rfl).1⟩

/-- C4 counterexample: the enumeration is case-sensitive per glob pattern, so
`a.Jpg` is NOT enumerated even though it matches `.jpg` case-insensitively; and
the enumeration is the concatenation of the four glob groups, not ascending
filename order (`b.jpg` is processed before `a.jpeg`). -/
theorem folder_enum_cex :
    jpgGlobFiles ["a.Jpg".toList] = []
  ∧ isJpegCI "a.Jpg".toList = true
  ∧ jpgGlobFiles ["b.jpg".toList, "a.jpeg".toList] = ["b.jpg".toList, "a.jpeg".toList]
  ∧ nameLe "a.jpeg".toList "b.jpg".toList
  ∧ ("a.jpeg".toList : Name) ≠ "b.jpg".toList := by
  exact ⟨by decide, by decide, by decide, by decide, by decide⟩

/-- C4 (amended): `compress_folder` (and `compress_folder_ultra`) enumerates
exactly the files whose name ends, case-sensitively, in one of the four
suffixes `.jpg`, `.jpeg`, `.JPG`, `.JPEG`, and processes them as the
concatenation of those four glob groups in that order (directory scan order
within each group), not in globally ascending filename order. -/
theorem folder_enum_exact (dir : List Name) (n : Name) :
    (n ∈ jpgGlobFiles dir ↔
      n ∈ dir ∧ (jpgSuffix.isSuffixOf n = true ∨ jpegSuffix.isSuffixOf n = true
        ∨ jpgSuffixUpper.isSuffixOf n = true ∨ jpegSuffixUpper.isSuffixOf n = true))
  ∧ jpgGlobFiles dir =
      dir.filter (fun m => jpgSuffix.isSuffixOf m)
        ++ dir.filter (fun m => jpegSuffix.isSuffixOf m)
        ++ dir.filter (fun m => jpgSuffixUpper.isSuffixOf m)
        ++ dir.filter (fun m => jpegSuffixUpper.isSuffixOf m) := by
  constructor
  · unfold jpgGlobFiles
    simp only [List.mem_append, List.mem_filter]
    tauto
  · rfl

/-- C5: the code is wrong.  Its own comment says the "ultra" save call uses
4:2:0 chroma subsampling ("最大壓縮", maximal compression), and the spec says
"maximal chroma subsampling", but for every quality and progressive flag the
call passes `subsampling = 0`, which the imaging library documents as 4:4:4 —
no chroma subsampling at all, the setting that LEAST favours size.
(Progressive encoding is indeed passed through as specified.) -/
theorem ultra_subsampling_is_444 :
    (∀ quality progressive,
      (ultraSaveKwargs quality progressive).subsampling = some 0
      ∧ (ultraSaveKwargs quality progressive).progressive = some progressive)
  ∧ pilSubsamplingOf 0 = some ChromaSubsampling.s444
  ∧ ChromaSubsampling.s444 ≠ maximalChromaSubsampling := by
  exact ⟨fun q p => ⟨rfl, rfl⟩, by decide, by decide⟩

/-- C6 counterexample: pixel mode `LA` (greyscale with alpha) carries an alpha
channel, yet `compress_image` leaves it unconverted: only `RGBA` and `P` are
converted to `RGB`. -/
theorem convert_alpha_mode_cex :
    convertStep modeSetOps { mode := "LA", width := 8, height := 8 } =
      Except.ok { mode := "LA", width := 8, height := 8 }
  ∧ pilHasAlpha "LA" = true
  ∧ ("LA" : String) ≠ "RGB" := by
  exact ⟨rfl, by decide, by decide⟩

/-- C6 (amended): before encoding, `compress_image` / `compress_image_ultra`
convert an image to RGB exactly when its pixel mode is `RGBA` or `P`; every
other mode — including the alpha-carrying modes `LA`, `PA`, `RGBa`, `La` — is
passed through unchanged. -/
theorem convert_step_modes (ops : ImagingOps) (img : PilImage) :
    (img.mode = "RGBA" ∨ img.mode = "P" → convertStep ops img = ops.convert img "RGB")
  ∧ (¬(img.mode = "RGBA" ∨ img.mode = "P") → convertStep ops img = Except.ok img) := by
  constructor
  · intro hc
    unfold convertStep
    rw [if_pos hc]
  · intro hc
    unfold convertStep
    rw [if_neg hc]

/-- C6 witness: an RGBA image really is converted. -/
theorem convert_step_modes_witness :
    convertStep modeSetOps { mode := "RGBA", width := 4, height := 4 } =
      modeSetOps.convert { mode := "RGBA", width := 4, height := 4 } "RGB" :=
  (convert_step_modes modeSetOps { mode := "RGBA", width := 4, height := 4 }).1 (Or.inl rfl)

/-- C7 counterexample: a matched file named exactly `.jpg` breaks idempotence.
The first run on the folder `{.jpg, a.jpg}` with prefix `p` completes with no
collisions, renaming `.jpg` to the extension-less `p1` (its `splitext`
extension is empty) and `a.jpg` to `p2.jpg`; the second run no longer matches
`p1`, so it renames `p2.jpg` to `p1.jpg`, changing the folder again. -/
theorem rename_idempotence_cex :
    runRename "p".toList [".jpg".toList, "a.jpg".toList] =
      (["p1".toList, "p2.jpg".toList], 0)
  ∧ runRename "p".toList ["p1".toList, "p2.jpg".toList] =
      (["p1".toList, "p1.jpg".toList], 0)
  ∧ ("p1.jpg".toList : Name) ≠ "p2.jpg".toList := by
  exact ⟨by decide, by decide, by decide⟩

/-- C7 (amended): on a duplicate-free folder in which every JPEG-matched file
has a non-empty `splitext` extension (which excludes only dots-then-`jpg`
names such as `.jpg`), a first rename run that completes with no collision
skips makes a second run with the same folder and prefix a no-op: every
source then equals its computed target, so every file is skipped and the
folder state is unchanged. -/
theorem rename_second_run_noop (pfx : Name) (st : List Name) (hnd : st.Nodup)
    (hext : ∀ n ∈ st, isJpegCI n = true → extOf n ≠ [])
    (hnc : (runRename pfx st).2 = 0) :
    runRename pfx (runRename pfx st).1 = ((runRename pfx st).1, 0) :=
  run2_noop hnd hext hnc

/-- C7 witness: idempotence on a concrete two-file folder. -/
theorem rename_second_run_noop_witness :
    runRename "dog_".toList (runRename "dog_".toList ["b.jpg".toList, "a.JPEG".toList]).1 =
      ((runRename "dog_".toList ["b.jpg".toList, "a.JPEG".toList]).1, 0) :=
  rename_second_run_noop "dog_".toList ["b.jpg".toList, "a.JPEG".toList]
    (by decide) (by decide) (by decide)

/-- C8: in every rename run, a file whose name already equals its computed
target is skipped with no state change; a file whose target is occupied by a
different name is skipped with only the warning counter incremented; a step
that does change the folder state can only happen when the target is absent;
and consequently a whole run on a duplicate-free folder preserves the number
of files and their distinctness — no file is ever overwritten. -/
theorem rename_never_overwrites (pfx : Name) (st : List Name) (hnd : st.Nodup) :
    (∀ (dg : ℕ) (acc : List Name × ℕ) (i : ℕ) (fn : Name),
      fn = targetName pfx dg i fn → renameStep pfx dg acc (i, fn) = acc)
  ∧ (∀ (dg : ℕ) (s : List Name) (c i : ℕ) (fn : Name),
      fn ≠ targetName pfx dg i fn → targetName pfx dg i fn ∈ s →
        renameStep pfx dg (s, c) (i, fn) = (s, c + 1))
  ∧ (∀ (dg : ℕ) (s : List Name) (c : ℕ) (p : ℕ × Name),
      (renameStep pfx dg (s, c) p).1 ≠ s →
        p.2 ≠ targetName pfx dg p.1 p.2 ∧ targetName pfx dg p.1 p.2 ∉ s)
  ∧ (runRename pfx st).1.length = st.length
  ∧ (runRename pfx st).1.Nodup := by
  refine ⟨?_, ?_, ?_, runRename_length pfx st, runRename_nodup hnd⟩
  · intro dg acc i fn hfn
    obtain ⟨s, c⟩ := acc
    rw [renameStep_def, if_pos hfn]
  · intro dg s c i fn h1 h2
    rw [renameStep_def, if_neg h1, if_pos h2]
  · intro dg s c p hne
    obtain ⟨i, fn⟩ := p
    rw [renameStep_def] at hne
    by_cases h1 : fn = targetName pfx dg i fn
    · rw [if_pos h1] at hne
      exact absurd rfl hne
    · by_cases h2 : targetName pfx dg i fn ∈ s
      · rw [if_neg h1, if_pos h2] at hne
        exact absurd rfl hne
      · exact ⟨h1, h2⟩

/-- C8 witness: a concrete run preserving file count. -/
theorem rename_never_overwrites_witness :
    (runRename "dog_".toList ["b.jpg".toList, "a.JPEG".toList]).1.length =
      (["b.jpg".toList, "a.JPEG".toList] : List Name).length :=
  (rename_never_overwrites "dog_".toList ["b.jpg".toList, "a.JPEG".toList]
    (by decide)).2.2.2.1

/-- C1: for positive dimensions and positive bounds, `compress_image` (and
`compress_image_ultra`) resizes exactly when `W > maxW or H > maxH`; when it
does, the new dimensions are `floor(W*s)` and `floor(H*s)` with
`s = min(maxW/W, maxH/H)` and never exceed the originals (no upscaling);
otherwise the dimensions are untouched.  In particular a 1200x800 image with
bounds 600x600 yields 600x400. -/
theorem compress_resize_policy (w h maxW maxH : ℕ) (hw : 0 < w) (hh : 0 < h)
    (_hmw : 0 < maxW) (_hmh : 0 < maxH) :
    (¬(maxW < w ∨ maxH < h) → newDimensions w h maxW maxH = (w, h))
  ∧ ((maxW < w ∨ maxH < h) →
      newDimensions w h maxW maxH =
        ((⌊(w : ℚ) * min ((maxW : ℚ) / (w : ℚ)) ((maxH : ℚ) / (h : ℚ))⌋).toNat,
          (⌊(h : ℚ) * min ((maxW : ℚ) / (w : ℚ)) ((maxH : ℚ) / (h : ℚ))⌋).toNat)
      ∧ (newDimensions w h maxW maxH).1 ≤ w ∧ (newDimensions w h maxW maxH).2 ≤ h)
  ∧ newDimensions 1200 800 600 600 = (600, 400) := by
  have hwq : (0 : ℚ) < (w : ℚ) := by exact_mod_cast hw
  have hhq : (0 : ℚ) < (h : ℚ) := by exact_mod_cast hh
  refine ⟨?_, ?_, ?_⟩
  · intro hnot
    rw [newDimensions, if_neg hnot]
  · intro ht
    have hs1 : min ((maxW : ℚ) / (w : ℚ)) ((maxH : ℚ) / (h : ℚ)) < 1 := by
      rcases ht with hcase | hcase
      · refine lt_of_le_of_lt (min_le_left _ _) ?_
        rw [div_lt_one hwq]
        exact_mod_cast hcase
      · refine lt_of_le_of_lt (min_le_right _ _) ?_
        rw [div_lt_one hhq]
        exact_mod_cast hcase
    refine ⟨by rw [newDimensions, if_pos ht]; rfl, ?_, ?_⟩
    · rw [newDimensions, if_pos ht]
      show (⌊(w : ℚ) * min ((maxW : ℚ) / (w : ℚ)) ((maxH : ℚ) / (h : ℚ))⌋).toNat ≤ w
      have hmul : (w : ℚ) * min ((maxW : ℚ) / (w : ℚ)) ((maxH : ℚ) / (h : ℚ)) < (w : ℚ) := by
        calc (w : ℚ) * min ((maxW : ℚ) / (w : ℚ)) ((maxH : ℚ) / (h : ℚ))
            < (w : ℚ) * 1 := mul_lt_mul_of_pos_left hs1 hwq
          _ = (w : ℚ) := mul_one _
      have hfl : ⌊(w : ℚ) * min ((maxW : ℚ) / (w : ℚ)) ((maxH : ℚ) / (h : ℚ))⌋ < (w : ℤ) := by
        rw [Int.floor_lt]
        push_cast
        exact hmul
      rw [Int.toNat_le]
      exact le_of_lt hfl
    · rw [newDimensions, if_pos ht]
      show (⌊(h : ℚ) * min ((maxW : ℚ) / (w : ℚ)) ((maxH : ℚ) / (h : ℚ))⌋).toNat ≤ h
      have hmul : (h : ℚ) * min ((maxW : ℚ) / (w : ℚ)) ((maxH : ℚ) / (h : ℚ)) < (h : ℚ) := by
        calc (h : ℚ) * min ((maxW : ℚ) / (w : ℚ)) ((maxH : ℚ) / (h : ℚ))
            < (h : ℚ) * 1 := mul_lt_mul_of_pos_left hs1 hhq
          _ = (h : ℚ) := mul_one _
      have hfl : ⌊(h : ℚ) * min ((maxW : ℚ) / (w : ℚ)) ((maxH : ℚ) / (h : ℚ))⌋ < (h : ℤ) := by
        rw [Int.floor_lt]
        push_cast
        exact hmul
      rw [Int.toNat_le]
      exact le_of_lt hfl
  · rw [newDimensions, if_pos (by norm_num)]
    norm_num [scaleDims, min_def, Prod.ext_iff]
    exact ⟨rfl, rfl⟩

/-- C1 witness: the 1200x800 / 600x600 scenario. -/
theorem compress_resize_policy_witness :
    0 < 1200 ∧ 0 < 800 ∧ 0 < 600 ∧ newDimensions 1200 800 600 600 = (600, 400) :=
  ⟨by decide, by decide, by decide,
    (compress_resize_policy 1200 800 600 600 (by decide) (by decide) (by decide)
      (by decide)).2.2⟩

/-- C9: whenever resizing occurs, there is an exactly-proportional rational
pair (W*s, H*s) — same aspect ratio as the input — within one pixel above each
computed output dimension: the outputs are the floors of that pair. -/
theorem resize_aspect_ratio (w h maxW maxH : ℕ) (hw : 0 < w) (hh : 0 < h)
    (ht : maxW < w ∨ maxH < h) :
    ∃ wq hq : ℚ, wq * (h : ℚ) = hq * (w : ℚ)
      ∧ ((newDimensions w h maxW maxH).1 : ℚ) ≤ wq
      ∧ wq < (newDimensions w h maxW maxH).1 + 1
      ∧ ((newDimensions w h maxW maxH).2 : ℚ) ≤ hq
      ∧ hq < (newDimensions w h maxW maxH).2 + 1 := by
  rw [newDimensions, if_pos ht]
  have hs0 : (0 : ℚ) ≤ min ((maxW : ℚ) / (w : ℚ)) ((maxH : ℚ) / (h : ℚ)) :=
    le_min (div_nonneg (by positivity) (by positivity))
      (div_nonneg (by positivity) (by positivity))
  refine ⟨(w : ℚ) * min ((maxW : ℚ) / (w : ℚ)) ((maxH : ℚ) / (h : ℚ)),
    (h : ℚ) * min ((maxW : ℚ) / (w : ℚ)) ((maxH : ℚ) / (h : ℚ)), by ring, ?_, ?_, ?_, ?_⟩
  · show ((⌊(w : ℚ) * min ((maxW : ℚ) / (w : ℚ)) ((maxH : ℚ) / (h : ℚ))⌋).toNat : ℚ) ≤ _
    have hx0 : (0 : ℚ) ≤ (w : ℚ) * min ((maxW : ℚ) / (w : ℚ)) ((maxH : ℚ) / (h : ℚ)) :=
      mul_nonneg (by positivity) hs0
    have htn : ((⌊(w : ℚ) * min ((maxW : ℚ) / (w : ℚ)) ((maxH : ℚ) / (h : ℚ))⌋).toNat : ℤ) =
        ⌊(w : ℚ) * min ((maxW : ℚ) / (w : ℚ)) ((maxH : ℚ) / (h : ℚ))⌋ :=
      Int.toNat_of_nonneg (Int.floor_nonneg.mpr hx0)
    calc ((⌊(w : ℚ) * min ((maxW : ℚ) / (w : ℚ)) ((maxH : ℚ) / (h : ℚ))⌋).toNat : ℚ)
        = ((⌊(w : ℚ) * min ((maxW : ℚ) / (w : ℚ)) ((maxH : ℚ) / (h : ℚ))⌋ : ℤ) : ℚ) := by
          exact_mod_cast congrArg (fun z : ℤ => (z : ℚ)) htn
      _ ≤ _ := Int.floor_le _
  · show (w : ℚ) * _ <
      ((⌊(w : ℚ) * min ((maxW : ℚ) / (w : ℚ)) ((maxH : ℚ) / (h : ℚ))⌋).toNat : ℚ) + 1
    have hx0 : (0 : ℚ) ≤ (w : ℚ) * min ((maxW : ℚ) / (w : ℚ)) ((maxH : ℚ) / (h : ℚ)) :=
      mul_nonneg (by positivity) hs0
    have htn : ((⌊(w : ℚ) * min ((maxW : ℚ) / (w : ℚ)) ((maxH : ℚ) / (h : ℚ))⌋).toNat : ℤ) =
        ⌊(w : ℚ) * min ((maxW : ℚ) / (w : ℚ)) ((maxH : ℚ) / (h : ℚ))⌋ :=
      Int.toNat_of_nonneg (Int.floor_nonneg.mpr hx0)
    have h2 : ((⌊(w : ℚ) * min ((maxW : ℚ) / (w : ℚ)) ((maxH : ℚ) / (h : ℚ))⌋).toNat : ℚ) =
        ((⌊(w : ℚ) * min ((maxW : ℚ) / (w : ℚ)) ((maxH : ℚ) / (h : ℚ))⌋ : ℤ) : ℚ) := by
      exact_mod_cast congrArg (fun z : ℤ => (z : ℚ)) htn
    rw [h2]
    exact Int.lt_floor_add_one _
  · show ((⌊(h : ℚ) * min ((maxW : ℚ) / (w : ℚ)) ((maxH : ℚ) / (h : ℚ))⌋).toNat : ℚ) ≤ _
    have hx0 : (0 : ℚ) ≤ (h : ℚ) * min ((maxW : ℚ) / (w : ℚ)) ((maxH : ℚ) / (h : ℚ)) :=
      mul_nonneg (by positivity) hs0
    have htn : ((⌊(h : ℚ) * min ((maxW : ℚ) / (w : ℚ)) ((maxH : ℚ) / (h : ℚ))⌋).toNat : ℤ) =
        ⌊(h : ℚ) * min ((maxW : ℚ) / (w : ℚ)) ((maxH : ℚ) / (h : ℚ))⌋ :=
      Int.toNat_of_nonneg (Int.floor_nonneg.mpr hx0)
    calc ((⌊(h : ℚ) * min ((maxW : ℚ) / (w : ℚ)) ((maxH : ℚ) / (h : ℚ))⌋).toNat : ℚ)
        = ((⌊(h : ℚ) * min ((maxW : ℚ) / (w : ℚ)) ((maxH : ℚ) / (h : ℚ))⌋ : ℤ) : ℚ) := by
          exact_mod_cast congrArg (fun z : ℤ => (z : ℚ)) htn
      _ ≤ _ := Int.floor_le _
  · show (h : ℚ) * _ <
      ((⌊(h : ℚ) * min ((maxW : ℚ) / (w : ℚ)) ((maxH : ℚ) / (h : ℚ))⌋).toNat : ℚ) + 1
    have hx0 : (0 : ℚ) ≤ (h : ℚ) * min ((maxW : ℚ) / (w : ℚ)) ((maxH : ℚ) / (h : ℚ)) :=
      mul_nonneg (by positivity) hs0
    have htn : ((⌊(h : ℚ) * min ((maxW : ℚ) / (w : ℚ)) ((maxH : ℚ) / (h : ℚ))⌋).toNat : ℤ) =
        ⌊(h : ℚ) * min ((maxW : ℚ) / (w : ℚ)) ((maxH : ℚ) / (h : ℚ))⌋ :=
      Int.toNat_of_nonneg (Int.floor_nonneg.mpr hx0)
    have h2 : ((⌊(h : ℚ) * min ((maxW : ℚ) / (w : ℚ)) ((maxH : ℚ) / (h : ℚ))⌋).toNat : ℚ) =
        ((⌊(h : ℚ) * min ((maxW : ℚ) / (w : ℚ)) ((maxH : ℚ) / (h : ℚ))⌋ : ℤ) : ℚ) := by
      exact_mod_cast congrArg (fun z : ℤ => (z : ℚ)) htn
    rw [h2]
    exact Int.lt_floor_add_one _

/-- C9 witness: the aspect-ratio property at the 1200x800 / 600x600 scenario. -/
theorem resize_aspect_ratio_witness :
    ∃ wq hq : ℚ, wq * ((800 : ℕ) : ℚ) = hq * ((1200 : ℕ) : ℚ)
      ∧ ((newDimensions 1200 800 600 600).1 : ℚ) ≤ wq
      ∧ wq < (newDimensions 1200 800 600 600).1 + 1
      ∧ ((newDimensions 1200 800 600 600).2 : ℚ) ≤ hq
      ∧ hq < (newDimensions 1200 800 600 600).2 + 1 :=
  resize_aspect_ratio 1200 800 600 600 (by decide) (by decide) (Or.inl (by decide))

/-- C10: when resizing is triggered, the computed dimensions are bounded above
by the respective bounds, but they are NOT clamped to a minimum of 1: a
1000x1 image under 500x500 bounds gets the degenerate size (500, 0), which is
what is passed to the resize call. -/
theorem resize_bound_and_degenerate (w h maxW maxH : ℕ) (hw : 0 < w) (hh : 0 < h)
    (ht : maxW < w ∨ maxH < h) :
    (newDimensions w h maxW maxH).1 ≤ maxW
  ∧ (newDimensions w h maxW maxH).2 ≤ maxH
  ∧ newDimensions 1000 1 500 500 = (500, 0) := by
  have hwq : (0 : ℚ) < (w : ℚ) := by exact_mod_cast hw
  have hhq : (0 : ℚ) < (h : ℚ) := by exact_mod_cast hh
  refine ⟨?_, ?_, ?_⟩
  · rw [newDimensions, if_pos ht]
    show (⌊(w : ℚ) * min ((maxW : ℚ) / (w : ℚ)) ((maxH : ℚ) / (h : ℚ))⌋).toNat ≤ maxW
    have hle : (w : ℚ) * min ((maxW : ℚ) / (w : ℚ)) ((maxH : ℚ) / (h : ℚ)) ≤ maxW := by
      calc (w : ℚ) * min ((maxW : ℚ) / (w : ℚ)) ((maxH : ℚ) / (h : ℚ))
          ≤ (w : ℚ) * ((maxW : ℚ) / (w : ℚ)) :=
            mul_le_mul_of_nonneg_left (min_le_left _ _) (le_of_lt hwq)
        _ = (maxW : ℚ) := by
            rw [mul_comm]
            exact div_mul_cancel₀ _ (ne_of_gt hwq)
    rw [Int.toNat_le]
    calc ⌊(w : ℚ) * min ((maxW : ℚ) / (w : ℚ)) ((maxH : ℚ) / (h : ℚ))⌋
        ≤ ⌊(maxW : ℚ)⌋ := Int.floor_le_floor hle
      _ = (maxW : ℤ) := Int.floor_natCast _
  · rw [newDimensions, if_pos ht]
    show (⌊(h : ℚ) * min ((maxW : ℚ) / (w : ℚ)) ((maxH : ℚ) / (h : ℚ))⌋).toNat ≤ maxH
    have hle : (h : ℚ) * min ((maxW : ℚ) / (w : ℚ)) ((maxH : ℚ) / (h : ℚ)) ≤ maxH := by
      calc (h : ℚ) * min ((maxW : ℚ) / (w : ℚ)) ((maxH : ℚ) / (h : ℚ))
          ≤ (h : ℚ) * ((maxH : ℚ) / (h : ℚ)) :=
            mul_le_mul_of_nonneg_left (min_le_right _ _) (le_of_lt hhq)
        _ = (maxH : ℚ) := by
            rw [mul_comm]
            exact div_mul_cancel₀ _ (ne_of_gt hhq)
    rw [Int.toNat_le]
    calc ⌊(h : ℚ) * min ((maxW : ℚ) / (w : ℚ)) ((maxH : ℚ) / (h : ℚ))⌋
        ≤ ⌊(maxH : ℚ)⌋ := Int.floor_le_floor hle
      _ = (maxH : ℤ) := Int.floor_natCast _
  · rw [newDimensions, if_pos (by norm_num)]
    norm_num [scaleDims, min_def, Prod.ext_iff]
    rfl

/-- C10 witness: the degenerate 1000x1 / 500x500 instance. -/
theorem resize_bound_and_degenerate_witness :
    (newDimensions 1000 1 500 500).1 ≤ 500
  ∧ (newDimensions 1000 1 500 500).2 ≤ 500
  ∧ newDimensions 1000 1 500 500 = (500, 0) :=
  resize_bound_and_degenerate 1000 1 500 500 (by decide) (by decide) (Or.inl (by decide))
